import Mathlib

/-!
Verification development for `src/check_braces.py`, a curly-brace checker.

The program reads a file into `content`, performs one left-to-right scan
keeping a stack of offsets of unmatched opening braces, prints
"Extra closing brace at index i" whenever a closing brace arrives on an
empty stack, and after the scan prints a three-line block for every offset
still on the stack (unclosed opening brace, its 1-based line number, and a
context snippet of up to 50 characters followed by "...").

Embedding conventions:
- `content` is a `List Char`; offsets are `Nat`.
- The Python list used as a stack (`append` / `pop` at the end, final
  iteration from the front, i.e. oldest first) is embedded as a Lean list
  with push/pop at the head; the final report therefore iterates over the
  reversal of the embedded stack.
- Printing is embedded as the list of printed lines, in order.
- The opening and closing brace characters are written with their escape
  codes: openers as the character with code 0x7b and closers 0x7d.
-/

/-- The scan loop of `check_braces` (lines 8-15 of the source): walk the
remaining characters, `i` being the offset of the first of them, `stack`
the offsets of currently unmatched opening braces (most recent first).
Returns the final stack together with the offsets reported as extra
closing braces, in the order they were printed during the scan. -/
def scanLoop : List Char → Nat → List Nat → List Nat × List Nat
  | [], _, stack => (stack, [])
  | c :: rest, i, stack =>
    if c = '\x7b' then
      scanLoop rest (i + 1) (i :: stack)
    else if c = '\x7d' then
      match stack with
      | [] =>
        let r := scanLoop rest (i + 1) []
        (r.1, i :: r.2)
      | _ :: tl => scanLoop rest (i + 1) tl
    else
      scanLoop rest (i + 1) stack

/-- The line printed for an extra closing brace at offset `i`
(line 13 of the source). -/
def extraMsg (i : Nat) : String :=
  "Extra closing brace at index " ++ toString i

/-- The line number computed for an unclosed opening brace at offset
`pos`: `content.count('\n', 0, pos) + 1` (line 20 of the source). -/
def line_no (content : List Char) (pos : Nat) : Nat :=
  (content.take pos).count '\n' + 1

/-- The context snippet `content[pos:pos+50]` (line 22 of the source). -/
def contextSnippet (content : List Char) (pos : Nat) : List Char :=
  (content.drop pos).take 50

/-- The three lines printed for an unclosed opening brace at offset `pos`
(lines 18-22 of the source). -/
def unclosedBlock (content : List Char) (pos : Nat) : List String :=
  ["Unclosed opening brace at index " ++ toString pos,
   "  Line: " ++ toString (line_no content pos),
   "  Context: " ++ String.mk (contextSnippet content pos) ++ "..."]

/-- Everything `check_braces` prints once the content has been read
(lines 7-22 of the source): the extra-closing-brace lines emitted during
the scan, in scan order, followed by one block per offset remaining on
the stack, oldest-opened first. -/
def check_braces_output (content : List Char) : List String :=
  let r := scanLoop content 0 []
  r.2.map extraMsg ++ (r.1.reverse).flatMap (unclosedBlock content)

/-- The whole of `check_braces` (lines 3-22 of the source): the
`open`/`read` on lines 4-5 may fail, which is embedded as an `Option`
input (`none` = the file could not be opened or read). On `none` the
function fails before printing anything; on `some content` it prints
`check_braces_output content`. -/
def check_braces (readResult : Option (List Char)) : Option (List String) :=
  readResult.map check_braces_output

/-- Contribution of one character to the brace balance: +1 for an opening
brace, -1 for a closing brace, 0 otherwise. -/
def braceDelta (c : Char) : Int :=
  if c = '\x7b' then 1 else if c = '\x7d' then -1 else 0

/-- Brace balance of a character sequence: number of opening braces minus
number of closing braces. -/
def bal : List Char → Int
  | [] => 0
  | c :: rest => braceDelta c + bal rest

theorem bal_append (xs ys : List Char) : bal (xs ++ ys) = bal xs + bal ys := by
  induction xs with
  | nil => simp [bal]
  | cons c xs ih => simp [bal, ih]; ring

theorem braceDelta_open : braceDelta '\x7b' = 1 := by decide

theorem braceDelta_close : braceDelta '\x7d' = -1 := by decide

theorem braceDelta_other {c : Char} (h1 : c ≠ '\x7b') (h2 : c ≠ '\x7d') :
    braceDelta c = 0 := by
  simp [braceDelta, h1, h2]

theorem bal_singleton (c : Char) : bal [c] = braceDelta c := by
  simp [bal]

theorem bal_eq_counts (xs : List Char) :
    bal xs = (xs.count '\x7b' : Int) - xs.count '\x7d' := by
  induction xs with
  | nil => simp [bal]
  | cons c xs ih =>
    simp only [bal, ih, List.count_cons]
    by_cases h1 : c = '\x7b'
    · subst h1; simp [braceDelta]; ring
    · by_cases h2 : c = '\x7d'
      · subst h2; simp [braceDelta]; ring
      · simp [braceDelta, h1, h2, Ne.symm h1, Ne.symm h2]

theorem bal_take_append_le {ds : List Char} (c : Char) {t : Nat}
    (h : t ≤ ds.length) :
    bal ((ds ++ [c]).take t) = bal (ds.take t) := by
  rw [List.take_append_eq_append_take, Nat.sub_eq_zero_of_le h]
  simp

theorem bal_take_append_gt {ds : List Char} (c : Char) {t : Nat}
    (h : ds.length < t) :
    bal ((ds ++ [c]).take t) = bal ds + braceDelta c := by
  rw [List.take_of_length_le (by simp; omega), bal_append]
  simp [bal]

theorem bal_take_clip {ds : List Char} {c : Char}
    (h : ∃ t, bal (ds.take t) < 0) :
    ∃ t, bal ((ds ++ [c]).take t) < 0 := by
  obtain ⟨t, ht⟩ := h
  refine ⟨min t ds.length, ?_⟩
  rw [bal_take_append_le c (min_le_right _ _)]
  have he : ds.take t = ds.take (min t ds.length) := by
    rw [List.take_eq_take]
    omega
  rw [← he]
  exact ht

/-- An opening brace at offset `p` of `s` that is never matched by a later
closing brace: no suffix segment starting right after it ever sees more
closing than opening braces. This is the reference notion of an unclosed
opener, written independently of the stack algorithm. -/
def unmatchedOpen (s : List Char) (p : Nat) : Prop :=
  p < s.length ∧ s[p]? = some '\x7b' ∧ ∀ t, 0 ≤ bal ((s.drop (p + 1)).take t)

/-- The stack update performed for one character at offset `i`: push `i`
on an opening brace, pop (if possible) on a closing brace, leave the
stack alone otherwise. -/
def stepStack (c : Char) (i : Nat) (st : List Nat) : List Nat :=
  if c = '\x7b' then i :: st else if c = '\x7d' then st.tail else st

theorem scanLoop_fst_cons (c : Char) (rest : List Char) (i : Nat)
    (st : List Nat) :
    (scanLoop (c :: rest) i st).1 =
      (scanLoop rest (i + 1) (stepStack c i st)).1 := by
  by_cases h1 : c = '\x7b'
  · simp [scanLoop, stepStack, h1]
  · by_cases h2 : c = '\x7d'
    · cases st <;> simp [scanLoop, stepStack, h1, h2]
    · simp [scanLoop, stepStack, h1, h2]

/-- Invariant tying the stack to the prefix `pre` of the content already
scanned: the stack is strictly decreasing (most recent on top), holds
only offsets of opening braces of `pre` whose suffix balance never goes
negative, the balance after each stacked offset equals its depth from the
top, and every opening brace of `pre` not on the stack has been matched
(its suffix balance does go negative somewhere within `pre`). -/
structure ScanInv (pre : List Char) (st : List Nat) : Prop where
  sorted : st.Pairwise (· > ·)
  mem_lt : ∀ p ∈ st, p < pre.length
  mem_open : ∀ p ∈ st, pre[p]? = some '\x7b'
  mem_nonneg : ∀ p ∈ st, ∀ t, 0 ≤ bal ((pre.drop (p + 1)).take t)
  depth : ∀ (m p : Nat), st[m]? = some p → bal (pre.drop (p + 1)) = m
  complete : ∀ p, p < pre.length → pre[p]? = some '\x7b' → p ∉ st →
      ∃ t, bal ((pre.drop (p + 1)).take t) < 0

theorem ScanInv.step {pre : List Char} {st : List Nat} (c : Char)
    (inv : ScanInv pre st) :
    ScanInv (pre ++ [c]) (stepStack c pre.length st) := by
  have hget : ∀ {p : Nat}, p < pre.length → (pre ++ [c])[p]? = pre[p]? := by
    intro p hp
    simp [List.getElem?_append, hp]
  have hdrop : ∀ {p : Nat}, p < pre.length →
      (pre ++ [c]).drop (p + 1) = pre.drop (p + 1) ++ [c] := by
    intro p hp
    exact List.drop_append_of_le_length (by omega)
  have hballen : ∀ p ∈ st, 0 ≤ bal (pre.drop (p + 1)) := by
    intro p hp
    have h := inv.mem_nonneg p hp (pre.drop (p + 1)).length
    rwa [List.take_length] at h
  have hdropself : (pre ++ [c]).drop (pre.length + 1) = [] :=
    List.drop_eq_nil_of_le (by simp)
  by_cases h1 : c = '\x7b'
  · subst h1
    rw [stepStack, if_pos rfl]
    refine ⟨?_, ?_, ?_, ?_, ?_, ?_⟩
    · exact List.pairwise_cons.mpr ⟨fun p hp => inv.mem_lt p hp, inv.sorted⟩
    · intro p hp
      simp only [List.length_append, List.length_cons, List.length_nil]
      rcases List.mem_cons.mp hp with rfl | hp
      · omega
      · have := inv.mem_lt p hp; omega
    · intro p hp
      rcases List.mem_cons.mp hp with rfl | hp
      · exact List.getElem?_concat_length pre _
      · rw [hget (inv.mem_lt p hp)]; exact inv.mem_open p hp
    · intro p hp t
      rcases List.mem_cons.mp hp with rfl | hp
      · rw [hdropself]; simp [bal]
      · have hplt := inv.mem_lt p hp
        rw [hdrop hplt]
        by_cases ht : t ≤ (pre.drop (p + 1)).length
        · rw [bal_take_append_le _ ht]; exact inv.mem_nonneg p hp t
        · rw [bal_take_append_gt _ (by omega), braceDelta_open]
          have := hballen p hp
          omega
    · intro m p hm
      match m with
      | 0 =>
        simp only [List.getElem?_cons_zero, Option.some.injEq] at hm
        subst hm
        rw [hdropself]
        simp [bal]
      | Nat.succ m =>
        simp only [List.getElem?_cons_succ] at hm
        have hp : p ∈ st := List.mem_iff_getElem?.mpr ⟨m, hm⟩
        have hplt := inv.mem_lt p hp
        have hd := inv.depth m p hm
        rw [hdrop hplt, bal_append, bal_singleton, braceDelta_open]
        push_cast
        omega
    · intro p hp hopen hnot
      have hplt : p < pre.length := by
        have hp' : p < pre.length + 1 := by simpa using hp
        rcases Nat.lt_succ_iff_lt_or_eq.mp hp' with h | h
        · exact h
        · exact absurd (h ▸ List.mem_cons_self _ _) hnot
      have hnot' : p ∉ st := fun h => hnot (List.mem_cons_of_mem _ h)
      rw [hget hplt] at hopen
      rw [hdrop hplt]
      exact bal_take_clip (inv.complete p hplt hopen hnot')
  · by_cases h2 : c = '\x7d'
    · subst h2
      rw [stepStack, if_neg h1, if_pos rfl]
      have hself : ∀ (q : Prop), (pre ++ ['\x7d'])[pre.length]? = some '\x7b' → q := by
        intro q h
        rw [List.getElem?_concat_length] at h
        exact absurd (Option.some.injEq .. ▸ h) (by decide)
      have hplt_of : ∀ {p : Nat}, p < (pre ++ ['\x7d']).length →
          (pre ++ ['\x7d'])[p]? = some '\x7b' → p < pre.length := by
        intro p hp hopen
        by_contra hge
        have : p = pre.length := by simp at hp; omega
        exact hself _ (this ▸ hopen)
      match st, inv with
      | [], inv =>
        refine ⟨List.Pairwise.nil, ?_, ?_, ?_, ?_, ?_⟩
        · intro p hp; cases hp
        · intro p hp; cases hp
        · intro p hp; cases hp
        · intro m p hm; simp at hm
        · intro p hp hopen _
          have hplt := hplt_of hp hopen
          rw [hget hplt] at hopen
          rw [hdrop hplt]
          exact bal_take_clip (inv.complete p hplt hopen (by simp))
      | p₀ :: tl, inv =>
        have hp₀ : p₀ ∈ p₀ :: tl := List.mem_cons_self _ _
        have hdepth : ∀ (m p : Nat), tl[m]? = some p →
            bal (pre.drop (p + 1)) = m + 1 := by
          intro m p hm
          have := inv.depth (m + 1) p (by simpa using hm)
          push_cast at this ⊢
          omega
        refine ⟨(List.pairwise_cons.mp inv.sorted).2, ?_, ?_, ?_, ?_, ?_⟩
        · intro p hp
          have := inv.mem_lt p (List.mem_cons_of_mem _ hp)
          simp only [List.length_append, List.length_cons, List.length_nil]
          omega
        · intro p hp
          have hplt := inv.mem_lt p (List.mem_cons_of_mem _ hp)
          rw [hget hplt]
          exact inv.mem_open p (List.mem_cons_of_mem _ hp)
        · intro p hp t
          have hplt := inv.mem_lt p (List.mem_cons_of_mem _ hp)
          obtain ⟨m, hm⟩ := List.mem_iff_getElem?.mp hp
          have hd := hdepth m p hm
          rw [hdrop hplt]
          by_cases ht : t ≤ (pre.drop (p + 1)).length
          · rw [bal_take_append_le _ ht]
            exact inv.mem_nonneg p (List.mem_cons_of_mem _ hp) t
          · rw [bal_take_append_gt _ (by omega), braceDelta_close]
            omega
        · intro m p hm
          have hp : p ∈ tl := List.mem_iff_getElem?.mpr ⟨m, hm⟩
          have hplt := inv.mem_lt p (List.mem_cons_of_mem _ hp)
          have hd := hdepth m p hm
          rw [hdrop hplt, bal_append, bal_singleton, braceDelta_close]
          omega
        · intro p hp hopen hnot
          have hplt := hplt_of hp hopen
          rw [hget hplt] at hopen
          rw [hdrop hplt]
          by_cases hpp : p = p₀
          · subst hpp
            have hd0 : bal (pre.drop (p + 1)) = 0 := by
              have := inv.depth 0 p (by simp)
              simpa using this
            refine ⟨(pre.drop (p + 1)).length + 1, ?_⟩
            rw [bal_take_append_gt _ (by omega), braceDelta_close]
            omega
          · have hnot' : p ∉ p₀ :: tl := by
              intro h
              rcases List.mem_cons.mp h with h | h
              · exact hpp h
              · exact hnot h
            exact bal_take_clip (inv.complete p hplt hopen hnot')
    · rw [stepStack, if_neg h1, if_neg h2]
      have hself : (pre ++ [c])[pre.length]? = some c :=
        List.getElem?_concat_length pre c
      refine ⟨inv.sorted, ?_, ?_, ?_, ?_, ?_⟩
      · intro p hp
        have := inv.mem_lt p hp
        simp only [List.length_append, List.length_cons, List.length_nil]
        omega
      · intro p hp
        rw [hget (inv.mem_lt p hp)]
        exact inv.mem_open p hp
      · intro p hp t
        have hplt := inv.mem_lt p hp
        rw [hdrop hplt]
        by_cases ht : t ≤ (pre.drop (p + 1)).length
        · rw [bal_take_append_le _ ht]; exact inv.mem_nonneg p hp t
        · rw [bal_take_append_gt _ (by omega), braceDelta_other h1 h2]
          have := hballen p hp
          omega
      · intro m p hm
        have hp : p ∈ st := List.mem_iff_getElem?.mpr ⟨m, hm⟩
        have hplt := inv.mem_lt p hp
        have hd := inv.depth m p hm
        rw [hdrop hplt, bal_append, bal_singleton, braceDelta_other h1 h2]
        omega
      · intro p hp hopen hnot
        have hplt : p < pre.length := by
          by_contra hge
          have hpe : p = pre.length := by simp at hp; omega
          rw [hpe, hself] at hopen
          exact h1 (Option.some.inj hopen)
        rw [hget hplt] at hopen
        rw [hdrop hplt]
        exact bal_take_clip (inv.complete p hplt hopen hnot)

theorem scanInv_go (rest : List Char) : ∀ (pre : List Char) (st : List Nat),
    ScanInv pre st → ScanInv (pre ++ rest) (scanLoop rest pre.length st).1 := by
  induction rest with
  | nil =>
    intro pre st inv
    simpa [scanLoop] using inv
  | cons c rest ih =>
    intro pre st inv
    have h := ih (pre ++ [c]) (stepStack c pre.length st) (inv.step c)
    rw [scanLoop_fst_cons]
    have hl : (pre ++ [c]).length = pre.length + 1 := by simp
    rw [hl, List.append_assoc] at h
    simpa using h

theorem scanInv_content (content : List Char) :
    ScanInv content (scanLoop content 0 []).1 := by
  have hinit : ScanInv [] [] := by
    refine ⟨List.Pairwise.nil, ?_, ?_, ?_, ?_, ?_⟩ <;> simp
  simpa using scanInv_go content [] [] hinit

theorem mem_scanLoop_fst_iff (content : List Char) (p : Nat) :
    p ∈ (scanLoop content 0 []).1 ↔ unmatchedOpen content p := by
  have inv := scanInv_content content
  constructor
  · intro hp
    exact ⟨inv.mem_lt p hp, inv.mem_open p hp, inv.mem_nonneg p hp⟩
  · rintro ⟨hlt, hopen, hnn⟩
    by_contra hnot
    obtain ⟨t, ht⟩ := inv.complete p hlt hopen hnot
    exact absurd (hnn t) (by omega)

theorem scanLoop_fst_sorted (content : List Char) :
    ((scanLoop content 0 []).1.reverse).Pairwise (· < ·) := by
  rw [List.pairwise_reverse]
  exact (scanInv_content content).sorted

theorem scanLoop_snd_sorted (rest : List Char) : ∀ (i : Nat) (st : List Nat),
    ((scanLoop rest i st).2.Pairwise (· < ·)) ∧
      ∀ e ∈ (scanLoop rest i st).2, i ≤ e := by
  induction rest with
  | nil =>
    intro i st
    simp [scanLoop]
  | cons c rest ih =>
    intro i st
    by_cases h1 : c = '\x7b'
    · simp only [scanLoop, if_pos h1]
      obtain ⟨hs, hlb⟩ := ih (i + 1) (i :: st)
      exact ⟨hs, fun e he => le_trans (by omega) (hlb e he)⟩
    · by_cases h2 : c = '\x7d'
      · match st with
        | [] =>
          simp only [scanLoop, if_neg h1, if_pos h2]
          obtain ⟨hs, hlb⟩ := ih (i + 1) []
          constructor
          · exact List.pairwise_cons.mpr
              ⟨fun e he => lt_of_lt_of_le (by omega) (hlb e he), hs⟩
          · intro e he
            rcases List.mem_cons.mp he with rfl | he
            · exact le_refl _
            · exact le_trans (by omega) (hlb e he)
        | p₀ :: tl =>
          simp only [scanLoop, if_neg h1, if_pos h2]
          obtain ⟨hs, hlb⟩ := ih (i + 1) tl
          exact ⟨hs, fun e he => le_trans (by omega) (hlb e he)⟩
      · simp only [scanLoop, if_neg h1, if_neg h2]
        obtain ⟨hs, hlb⟩ := ih (i + 1) st
        exact ⟨hs, fun e he => le_trans (by omega) (hlb e he)⟩

theorem scanLoop_count (rest : List Char) : ∀ (i : Nat) (st : List Nat),
    (scanLoop rest i st).1.length + rest.count '\x7d' =
      st.length + rest.count '\x7b' + (scanLoop rest i st).2.length := by
  induction rest with
  | nil =>
    intro i st
    simp [scanLoop]
  | cons c rest ih =>
    intro i st
    by_cases h1 : c = '\x7b'
    · subst h1
      simp only [scanLoop, if_pos rfl]
      have h := ih (i + 1) (i :: st)
      simp only [List.length_cons] at h ⊢
      simp [List.count_cons] at h ⊢
      omega
    · by_cases h2 : c = '\x7d'
      · subst h2
        match st with
        | [] =>
          simp only [scanLoop, if_neg h1, if_pos rfl]
          have h := ih (i + 1) []
          simp only [List.length_cons, List.length_nil] at h ⊢
          simp [List.count_cons] at h ⊢
          omega
        | p₀ :: tl =>
          simp only [scanLoop, if_neg h1, if_pos rfl]
          have h := ih (i + 1) tl
          simp only [List.length_cons] at h ⊢
          simp [List.count_cons] at h ⊢
          omega
      · simp only [scanLoop, if_neg h1, if_neg h2]
        have h := ih (i + 1) st
        simp [List.count_cons, h1, h2] at h ⊢
        omega

theorem scanLoop_snd_nil (rest : List Char) : ∀ (i : Nat) (st : List Nat),
    (∀ t, 0 ≤ bal (rest.take t) + st.length) → (scanLoop rest i st).2 = [] := by
  induction rest with
  | nil =>
    intro i st _
    simp [scanLoop]
  | cons c rest ih =>
    intro i st h
    by_cases h1 : c = '\x7b'
    · subst h1
      simp only [scanLoop, if_pos rfl]
      apply ih
      intro t
      have ht := h (t + 1)
      rw [List.take_succ_cons, bal, braceDelta_open] at ht
      simp only [List.length_cons] at ht ⊢
      push_cast at ht ⊢
      omega
    · by_cases h2 : c = '\x7d'
      · subst h2
        match st with
        | [] =>
          exfalso
          have ht := h 1
          rw [List.take_succ_cons, List.take_zero] at ht
          norm_num [bal, braceDelta_close] at ht
        | p₀ :: tl =>
          simp only [scanLoop, if_neg h1, if_pos rfl]
          apply ih
          intro t
          have ht := h (t + 1)
          rw [List.take_succ_cons, bal, braceDelta_close] at ht
          simp only [List.length_cons] at ht ⊢
          push_cast at ht
          omega
      · simp only [scanLoop, if_neg h1, if_neg h2]
        apply ih
        intro t
        have ht := h (t + 1)
        rw [List.take_succ_cons, bal, braceDelta_other h1 h2] at ht
        omega

theorem scanLoop_replicate_closers : ∀ (n i : Nat),
    scanLoop (List.replicate n '\x7d') i [] = ([], List.range' i n) := by
  intro n
  induction n with
  | zero =>
    intro i
    simp [scanLoop]
  | succ n ih =>
    intro i
    rw [List.replicate_succ]
    simp only [scanLoop, if_neg (by decide : ¬('\x7d' : Char) = '\x7b'), if_pos rfl]
    rw [ih (i + 1), List.range'_succ]
    simp

theorem mem_output_of_mem_stack {content : List Char} {pos : Nat}
    (hp : pos ∈ (scanLoop content 0 []).1) {l : String}
    (hl : l ∈ unclosedBlock content pos) :
    l ∈ check_braces_output content := by
  apply List.mem_append_right
  exact List.mem_flatMap.mpr ⟨pos, List.mem_reverse.mpr hp, hl⟩

theorem check_braces_output_eq_nil_iff (content : List Char) :
    check_braces_output content = [] ↔
      (scanLoop content 0 []).2 = [] ∧ (scanLoop content 0 []).1 = [] := by
  constructor
  · intro h
    obtain ⟨hm, hb⟩ := List.append_eq_nil.mp h
    refine ⟨List.map_eq_nil_iff.mp hm, ?_⟩
    by_contra hne
    obtain ⟨a, ha⟩ := List.exists_mem_of_ne_nil _ hne
    have hmem : ("Unclosed opening brace at index " ++ toString a) ∈
        (((scanLoop content 0 []).1).reverse).flatMap (unclosedBlock content) :=
      List.mem_flatMap.mpr ⟨a, List.mem_reverse.mpr ha, by simp [unclosedBlock]⟩
    rw [hb] at hmem
    cases hmem
  · rintro ⟨h2, h1⟩
    simp [check_braces_output, h1, h2]

/-- C1: for every content string whose braces are balanced and correctly
nested (equal counts of opening and closing braces, and no prefix with
more closing than opening braces), including the empty string, the scan
prints no diagnostic output at all. -/
theorem balanced_nested_no_output (content : List Char)
    (hbal : content.count '\x7b' = content.count '\x7d')
    (hpre : ∀ k ≤ content.length,
      (content.take k).count '\x7d' ≤ (content.take k).count '\x7b') :
    check_braces_output content = [] := by
  have hpre' : ∀ k, (content.take k).count '\x7d' ≤ (content.take k).count '\x7b' := by
    intro k
    by_cases hk : k ≤ content.length
    · exact hpre k hk
    · rw [List.take_of_length_le (by omega)]
      exact (List.take_length content) ▸ hpre content.length (le_refl _)
  have hsnd : (scanLoop content 0 []).2 = [] := by
    apply scanLoop_snd_nil
    intro t
    have h := hpre' t
    have hb := bal_eq_counts (content.take t)
    simp only [List.length_nil]
    push_cast
    omega
  have hcnt := scanLoop_count content 0 []
  rw [hsnd] at hcnt
  have hfst : (scanLoop content 0 []).1 = [] := by
    have : (scanLoop content 0 []).1.length = 0 := by
      simp only [List.length_nil] at hcnt
      omega
    exact List.eq_nil_of_length_eq_zero this
  exact (check_braces_output_eq_nil_iff content).mpr ⟨hsnd, hfst⟩

theorem balanced_nested_no_output_witness :
    ("\x7b\x7b\x7d\x7d".toList.count '\x7b' = "\x7b\x7b\x7d\x7d".toList.count '\x7d') ∧
    (∀ k ≤ "\x7b\x7b\x7d\x7d".toList.length,
      ("\x7b\x7b\x7d\x7d".toList.take k).count '\x7d' ≤
        ("\x7b\x7b\x7d\x7d".toList.take k).count '\x7b') ∧
    check_braces_output "\x7b\x7b\x7d\x7d".toList = [] :=
  ⟨by decide, by decide,
    balanced_nested_no_output "\x7b\x7b\x7d\x7d".toList (by decide) (by decide)⟩

/-- C2 (counterexample): on the input consisting of the six characters
a, opening brace, newline, b, closing brace, closing brace, the program
does not print "Extra closing brace at index 4": the second closing brace
sits at offset 5, not 4 (the newline occupies offset 2, so the two
closing braces are at offsets 4 and 5). -/
theorem extra_closing_not_at_index_4 :
    check_braces_output "a\x7b\nb\x7d\x7d".toList ≠
      ["Extra closing brace at index 4"] := by
  decide

/-- C2 (amended): for the input "a{\nb}}" (newline a single character),
the first closing brace is at offset 4 and matches the opening brace at
offset 1 with no diagnostic for either (after the first five characters
the stack is empty and nothing has been reported), and the second closing
brace at offset 5 finds the stack empty, so exactly the line
"Extra closing brace at index 5" is printed. -/
theorem extra_closing_at_index_5 :
    (scanLoop "a\x7b\nb".toList 0 []).1 = [1] ∧
    scanLoop "a\x7b\nb\x7d".toList 0 [] = ([], []) ∧
    check_braces_output "a\x7b\nb\x7d\x7d".toList =
      ["Extra closing brace at index 5"] := by
  refine ⟨by decide, by decide, by decide⟩

/-- C3: for every content string consisting only of closing braces,
exactly one "Extra closing brace at index i" line is printed per
character, with i its zero-based offset, from 0 up to length-1 in
ascending scan order, and nothing else is printed. -/
theorem closers_only_output (n : Nat) :
    check_braces_output (List.replicate n '\x7d') =
      (List.range n).map extraMsg := by
  simp [check_braces_output, scanLoop_replicate_closers, List.range_eq_range']

/-- C4: every offset reported as an unclosed opening brace is reported
with line number equal to the count of newline characters strictly
before that offset, plus 1. -/
theorem unclosed_line_number (content : List Char) (pos : Nat)
    (h : pos ∈ (scanLoop content 0 []).1) :
    ("  Line: " ++ toString ((content.take pos).count '\n' + 1)) ∈
      check_braces_output content :=
  mem_output_of_mem_stack h (by simp [unclosedBlock, line_no])

theorem unclosed_line_number_witness :
    3 ∈ (scanLoop "\n\n\n\x7b".toList 0 []).1 ∧
    ("\n\n\n\x7b".toList.take 3).count '\n' = 3 ∧
    ("  Line: " ++ toString (("\n\n\n\x7b".toList.take 3).count '\n' + 1)) ∈
      check_braces_output "\n\n\n\x7b".toList ∧
    ("  Line: " ++ toString (("\n\n\n\x7b".toList.take 3).count '\n' + 1)) =
      "  Line: 4" :=
  ⟨by decide, by decide, unclosed_line_number "\n\n\n\x7b".toList 3 (by decide),
    by decide⟩

/-- C5: every offset reported as an unclosed opening brace is reported
with a context snippet that is exactly the substring of the content
starting at that offset, of length min(50, length - offset), with the
literal ellipsis marker appended in all cases. -/
theorem unclosed_context_snippet (content : List Char) (pos : Nat)
    (h : pos ∈ (scanLoop content 0 []).1) :
    ("  Context: " ++ String.mk ((content.drop pos).take 50) ++ "...") ∈
      check_braces_output content ∧
    ((content.drop pos).take 50).length = min 50 (content.length - pos) := by
  constructor
  · exact mem_output_of_mem_stack h (by simp [unclosedBlock, contextSnippet])
  · simp [List.length_take, List.length_drop]

theorem unclosed_context_snippet_witness :
    0 ∈ (scanLoop "\x7bab".toList 0 []).1 ∧
    (("  Context: " ++ String.mk (("\x7bab".toList.drop 0).take 50) ++ "...") ∈
        check_braces_output "\x7bab".toList ∧
      (("\x7bab".toList.drop 0).take 50).length =
        min 50 ("\x7bab".toList.length - 0)) ∧
    ("  Context: " ++ String.mk (("\x7bab".toList.drop 0).take 50) ++ "...") =
      "  Context: \x7bab..." ∧
    (("\x7bab".toList.drop 0).take 50).length = 3 :=
  ⟨by decide, unclosed_context_snippet "\x7bab".toList 0 (by decide), by decide,
    by decide⟩

/-- C6: the printed output is the extra-closing-brace lines, in
left-to-right (strictly ascending offset) scan order, followed by all
unclosed-opening-brace blocks, in the order the braces were opened,
which is strictly ascending offset order. -/
theorem output_ordering (content : List Char) :
    check_braces_output content =
      ((scanLoop content 0 []).2).map extraMsg ++
        (((scanLoop content 0 []).1).reverse).flatMap (unclosedBlock content) ∧
    ((scanLoop content 0 []).2).Pairwise (· < ·) ∧
    (((scanLoop content 0 []).1).reverse).Pairwise (· < ·) :=
  ⟨rfl, (scanLoop_snd_sorted content 0 []).1, scanLoop_fst_sorted content⟩

/-- The stack contents after scanning the first k characters of the
content (the state of the scan after processing offsets 0..k-1). -/
def stackAfter (content : List Char) (k : Nat) : List Nat :=
  (scanLoop (content.take k) 0 []).1

/-- C7: at every step of the scan the stack holds exactly the offsets of
the opening braces seen so far that have not been matched by a later
closing brace already seen (bottom-to-top, i.e. reading the Python list
front to back, in strictly ascending order), and the stack remaining
after the full pass is exactly the set of unclosed openers. -/
theorem stack_invariant (content : List Char) (k : Nat) :
    (∀ p, p ∈ stackAfter content k ↔ unmatchedOpen (content.take k) p) ∧
    ((stackAfter content k).reverse).Pairwise (· < ·) ∧
    stackAfter content content.length = (scanLoop content 0 []).1 ∧
    (∀ p, p ∈ (scanLoop content 0 []).1 ↔ unmatchedOpen content p) := by
  refine ⟨fun p => mem_scanLoop_fst_iff (content.take k) p,
    scanLoop_fst_sorted _, ?_, fun p => mem_scanLoop_fst_iff content p⟩
  rw [stackAfter, List.take_length]

/-- C8: the run fails exactly when the file cannot be opened or read; on
such a failure no diagnostic output is produced, and once content has
been read, every content string yields a (successful) report. -/
theorem check_braces_failure (r : Option (List Char)) :
    ((check_braces r).isSome ↔ r.isSome) ∧
    check_braces none = none ∧
    (∀ content, check_braces (some content) = some (check_braces_output content)) := by
  refine ⟨?_, rfl, fun _ => rfl⟩
  cases r <;> simp [check_braces]

/-- C9: the scan is deterministic — the printed diagnostics are a pure
function of the content, so two runs on identical content produce
identical output. -/
theorem output_deterministic (c₁ c₂ : List Char) (h : c₁ = c₂) :
    check_braces_output c₁ = check_braces_output c₂ := by
  rw [h]

theorem output_deterministic_witness :
    check_braces_output "a\x7b".toList = check_braces_output "a\x7b".toList :=
  output_deterministic "a\x7b".toList "a\x7b".toList rfl

/-- C10: the number of extra-closing-brace diagnostics minus the number
of unclosed-opening-brace diagnostics equals the count of closing braces
minus the count of opening braces, and whenever the two brace counts
differ at least one diagnostic is printed. -/
theorem diagnostic_count_balance (content : List Char) :
    (((scanLoop content 0 []).2.length : Int) -
        (((scanLoop content 0 []).1).reverse).length =
      (content.count '\x7d' : Int) - content.count '\x7b') ∧
    (content.count '\x7d' ≠ content.count '\x7b' →
      check_braces_output content ≠ []) := by
  have hcnt := scanLoop_count content 0 []
  simp only [List.length_nil] at hcnt
  constructor
  · rw [List.length_reverse]
    omega
  · intro hne hnil
    obtain ⟨h2, h1⟩ := (check_braces_output_eq_nil_iff content).mp hnil
    rw [h1, h2] at hcnt
    simp at hcnt
    omega

theorem diagnostic_count_balance_witness :
    ("\x7d".toList.count '\x7d' ≠ "\x7d".toList.count '\x7b') ∧
    check_braces_output "\x7d".toList ≠ [] :=
  ⟨by decide, (diagnostic_count_balance "\x7d".toList).2 (by decide)⟩

